import Mathlib

set_option maxRecDepth 4000
set_option maxHeartbeats 1000000

/-!
Verification development for the thriller-core dataflow graph
(src/thriller-core/src/dataflow/graph.rs): graph construction (connect),
topological scheduling (topo_sort), code emission (emit), block-output
extraction (reduce_block_outputs), and the two unimplemented extension points
(try_split, try_find_disconnected_subgraph).

The Rust code stores nodes behind shared reference-counted cells
(Rc<RefCell<ThrillerNode>>) and identifies nodes and edges by process-unique
ids.  The embedding represents the node store as a list of node records and
records adjacency by id, so that the mutation performed by connect becomes a
pointwise rewrite of the store.  The struct definitions for ThrillerNode and
ThrillerEdge are not under src/ and are modelled from the spec; everything
else is translated from graph.rs.
-/

/-- Modelled from the spec: the memory-placement tag carried by a graph,
opaque to this core (spec section 3 and 6).  Its constructors are irrelevant
to every operation in graph.rs. -/
inductive MemoryLevel where
  | Register
  | Shared
  | Global
deriving DecidableEq

instance {σ τ : Type} [DecidableEq σ] [DecidableEq τ] : DecidableEq (Except σ τ)
  | Except.error a, Except.error b => decidable_of_iff (a = b) (by simp)
  | Except.error _, Except.ok _ => Decidable.isFalse (by simp)
  | Except.ok _, Except.error _ => Decidable.isFalse (by simp)
  | Except.ok a, Except.ok b => decidable_of_iff (a = b) (by simp)

/-- Modelled from the spec: the node payload variant {Op, Block, other}
(spec section 3 and 6).  Op and Block each expose an emission operation
returning a code fragment or failing with a code-generation error payload
(type parameter ε); Block additionally exposes a reduction operation
returning an optional ordered list of output hand-off descriptors (the
AttachedEdge payloads, type parameter α). -/
inductive ThrillerNodeInner (ε α : Type) where
  | Op (emit : Except ε String)
  | Block (emit : Except ε String) (reduce : Option (List α))
  | Other
deriving DecidableEq

/-- Modelled from the spec: ThrillerNode, whose definition is not under src/
(spec section 3): a process-unique id, the payload, ordered out-edges and
in-edges, successor list (next), predecessor list (prev), and the mutable
in-degree counter.  Per the multi-edge scenario of spec section 8, add_next,
add_prev, add_in_edge and add_out_edge append one entry per edge and do not
deduplicate.  Edges and neighbour nodes are recorded here by their numeric
ids (the Rust code holds shared references; ids are process-unique). -/
structure ThrillerNode (ε α : Type) where
  id : Nat
  inner : ThrillerNodeInner ε α
  in_edges : List Nat := []
  out_edges : List Nat := []
  nexts : List Nat := []
  prevs : List Nat := []
  in_degrees : Nat := 0
deriving DecidableEq

/-- Modelled from the spec: ThrillerEdge, whose definition is not under src/
(spec section 3): a process-unique id and a source and destination node,
recorded here by node id. -/
structure ThrillerEdge where
  id : Nat
  src : Nat
  dst : Nat
deriving DecidableEq

/-- The dataflow graph (graph.rs, struct ThrillerGraph, lines 14-22). -/
structure ThrillerGraph (ε α : Type) where
  id : Nat
  nodes : List (ThrillerNode ε α) := []
  edges : List ThrillerEdge := []
  mem_level : MemoryLevel := .Register
deriving DecidableEq

variable {ε α : Type}

/-- The ids of a list of nodes, in order. -/
def idsOf (ns : List (ThrillerNode ε α)) : List Nat :=
  ns.map ThrillerNode.id

/-- The edges of `es` whose destination is the node id `i`. -/
def inEdgesTo (es : List ThrillerEdge) (i : Nat) : List ThrillerEdge :=
  es.filter fun e => e.dst = i

/-- The edges of `es` whose source is the node id `i`. -/
def outEdgesFrom (es : List ThrillerEdge) (i : Nat) : List ThrillerEdge :=
  es.filter fun e => e.src = i

/-- The edges of `es` from node id `u` to node id `v`. -/
def edgesBetween (es : List ThrillerEdge) (u v : Nat) : List ThrillerEdge :=
  es.filter fun e => e.src = u ∧ e.dst = v

/-- The body of the per-edge loop of ThrillerGraph::connect
(graph.rs lines 47-61) as it acts on one node of the store: when the node is
the source of the edge, record the edge on its out-edge list and the
destination on its successor list; when the node is the destination, record
the edge on its in-edge list, the source on its predecessor list, and
increment its in-degree. -/
def connectNodeStep (n : ThrillerNode ε α) (e : ThrillerEdge) : ThrillerNode ε α :=
  let n1 := if n.id = e.src then
      { n with out_edges := n.out_edges ++ [e.id], nexts := n.nexts ++ [e.dst] }
    else n
  if n1.id = e.dst then
    { n1 with in_edges := n1.in_edges ++ [e.id], prevs := n1.prevs ++ [e.src],
              in_degrees := n1.in_degrees + 1 }
  else n1

/-- One iteration of the edge loop of ThrillerGraph::connect applied to the
whole node store: the Rust code mutates the two endpoint nodes in place
through shared references, which is a pointwise rewrite of the store. -/
def connectEdge (ns : List (ThrillerNode ε α)) (e : ThrillerEdge) : List (ThrillerNode ε α) :=
  ns.map fun n => connectNodeStep n e

/-- ThrillerGraph::connect (graph.rs lines 46-62): for each edge, in
insertion order, record adjacency on both endpoints and increment the
destination in-degree. -/
def ThrillerGraph.connect (g : ThrillerGraph ε α) : ThrillerGraph ε α :=
  { g with nodes := g.edges.foldl connectEdge g.nodes }

/-- The proved closed form of connect for one node (used to state and prove
the counting claims): each adjacency list receives one entry per incident
edge, in edge-insertion order, and the in-degree counter grows by the number
of incoming edges. -/
def connectFields (es : List ThrillerEdge) (n : ThrillerNode ε α) : ThrillerNode ε α :=
  { n with
    out_edges := n.out_edges ++ (outEdgesFrom es n.id).map ThrillerEdge.id,
    nexts := n.nexts ++ (outEdgesFrom es n.id).map ThrillerEdge.dst,
    in_edges := n.in_edges ++ (inEdgesTo es n.id).map ThrillerEdge.id,
    prevs := n.prevs ++ (inEdgesTo es n.id).map ThrillerEdge.src,
    in_degrees := n.in_degrees + (inEdgesTo es n.id).length }

/-- Working state of ThrillerGraph::topo_sort (graph.rs lines 65-99): the
node store of the graph (threaded through the traversal; the Rust code only
ever reads it here), the accumulated result list, and the transient
id-to-in-degree working map (the Rust HashMap, as an association list). -/
structure TopoState (ε α : Type) where
  nodes : List (ThrillerNode ε α)
  sorted : List (ThrillerNode ε α)
  degrees : List (Nat × Nat)
deriving DecidableEq

/-- Lookup in the working map (the HashMap indexing `in_degrees[&node_id]`
and `get_mut`).  `none` corresponds to the absent-key case, in which the Rust
indexing would panic; with the snapshot orders the algorithm actually uses
(a permutation of the keys, each id examined once), the key is always
present. -/
def lookupDeg (m : List (Nat × Nat)) (k : Nat) : Option Nat :=
  (m.find? fun p => p.1 = k).map Prod.snd

/-- Decrement the working in-degree recorded for key `k`
(graph.rs lines 87-91). -/
def decDeg (m : List (Nat × Nat)) (k : Nat) : List (Nat × Nat) :=
  m.map fun p => if p.1 = k then (p.1, p.2 - 1) else p

/-- Remove a key from the working map (graph.rs line 93). -/
def removeKey (m : List (Nat × Nat)) (k : Nat) : List (Nat × Nat) :=
  m.filter fun p => ¬ p.1 = k

/-- Node lookup by id in the node store.  The Rust working map stores a
shared reference to the node next to its in-degree; with process-unique ids
the two are interchangeable. -/
def findNode (ns : List (ThrillerNode ε α)) (k : Nat) : Option (ThrillerNode ε α) :=
  ns.find? fun n => n.id = k

/-- The body of the inner for-loop of ThrillerGraph::topo_sort
(graph.rs lines 82-95): look up the recorded in-degree of the id; when it is
zero, push the node onto the result, decrement the working in-degree of each
successor (once per nexts entry), and remove the id from the working map. -/
def topoStep (st : TopoState ε α) (nid : Nat) : TopoState ε α :=
  match lookupDeg st.degrees nid with
  | none => st
  | some d =>
    if d = 0 then
      match findNode st.nodes nid with
      | none => st
      | some node =>
        { st with sorted := st.sorted ++ [node],
                  degrees := removeKey (node.nexts.foldl decDeg st.degrees) nid }
    else st

/-- One full sweep over a snapshot `ks` of the working-map keys
(graph.rs lines 81-95). -/
def topoPass (st : TopoState ε α) (ks : List Nat) : TopoState ε α :=
  ks.foldl topoStep st

/-- The while-loop of ThrillerGraph::topo_sort (graph.rs lines 80-96).
`sel i ks` gives the iteration order of the key snapshot taken in pass `i`,
modelling the unspecified HashMap iteration order; `fuel` bounds the number
of passes, and `none` models the loop still running after `fuel` passes (the
Rust loop has no other way to stop while the map is nonempty). -/
def topoLoop (sel : Nat → List Nat → List Nat) :
    Nat → Nat → TopoState ε α → Option (TopoState ε α)
  | 0, _, st => if st.degrees.isEmpty then some st else none
  | fuel + 1, i, st =>
    if st.degrees.isEmpty then some st
    else topoLoop sel fuel (i + 1) (topoPass st (sel i (st.degrees.map Prod.fst)))

/-- The initial working state of topo_sort (graph.rs lines 66-78): a
transient copy of each node id with its persistent in-degree, in
node-insertion order. -/
def topoInit (g : ThrillerGraph ε α) : TopoState ε α :=
  { nodes := g.nodes, sorted := [], degrees := g.nodes.map fun n => (n.id, n.in_degrees) }

/-- topo_sort run with an explicit key-snapshot order and pass budget. -/
def topoSortRun (sel : Nat → List Nat → List Nat) (fuel : Nat) (g : ThrillerGraph ε α) :
    Option (TopoState ε α) :=
  topoLoop sel fuel 0 (topoInit g)

/-- ThrillerGraph::topo_sort (graph.rs lines 65-99), with the key snapshots
iterated in the insertion order of the working map and `g.nodes.length`
passes of fuel (shown below to be enough for every acyclic graph; `none`
models the non-terminating cyclic case). -/
def ThrillerGraph.topo_sort (g : ThrillerGraph ε α) : Option (List (ThrillerNode ε α)) :=
  (topoSortRun (fun _ ks => ks) g.nodes.length g).map TopoState.sorted

/-- The loop body of the emit implementation of Task for ThrillerGraph
(graph.rs lines 146-156): an Op or Block node appends its own emitted
fragment to the accumulated code, failing fast on the first error (the
question-mark operator); any other payload contributes nothing. -/
def emitStep (code : String) (n : ThrillerNode ε α) : Except ε String :=
  match n.inner with
  | .Op e => do pure (code ++ (← e))
  | .Block e _ => do pure (code ++ (← e))
  | .Other => pure code

/-- The emission fold of emit over the sorted nodes (graph.rs lines 143-158),
starting from the empty accumulator. -/
def emitList (ns : List (ThrillerNode ε α)) : Except ε String :=
  ns.foldlM emitStep ""

/-- The emit implementation of Task for ThrillerGraph (graph.rs lines
142-159); `none` models the case in which the embedded topo_sort does not
finish. -/
def ThrillerGraph.emit (g : ThrillerGraph ε α) : Option (Except ε String) :=
  g.topo_sort.map emitList

/-- Spec-side description of one node contribution to emit (spec section
4.3): the own emission fragment of an Op or Block node, the empty fragment
for any other payload. -/
def nodeFragment (n : ThrillerNode ε α) : Except ε String :=
  match n.inner with
  | .Op e => e
  | .Block e _ => e
  | .Other => Except.ok ""

/-- Concatenation of a list of fragments, in order. -/
def joinStrings (l : List String) : String :=
  l.foldl (fun a b => a ++ b) ""

/-- Spec-side description of the fragment collection of emit (spec section
4.3): the own fragment of every node in order, short-circuiting at the first
emission failure, which is propagated unchanged. -/
def fragmentsOf : List (ThrillerNode ε α) → Except ε (List String)
  | [] => .ok []
  | n :: l =>
    match nodeFragment n with
    | .error err => .error err
    | .ok s =>
      match fragmentsOf l with
      | .error err => .error err
      | .ok ss => .ok (s :: ss)

/-- The scan of ThrillerGraph::reduce_block_outputs over the sorted nodes
(graph.rs lines 105-117): at the first node whose payload is a Block, if its
reduction yields some outputs they are copied one by one into a fresh list
which is returned; if the reduction yields none, the whole call returns none;
later nodes are never examined.  With no Block node the scan returns none. -/
def reduceList : List (ThrillerNode ε α) → Option (List α)
  | [] => none
  | n :: rest =>
    match n.inner with
    | .Block _ r =>
      match r with
      | some outputs => some (outputs.foldl (fun acc o => acc ++ [o]) [])
      | none => none
    | _ => reduceList rest

/-- ThrillerGraph::reduce_block_outputs (graph.rs lines 102-120); the outer
option models whether the embedded topo_sort finishes. -/
def ThrillerGraph.reduce_block_outputs (g : ThrillerGraph ε α) : Option (Option (List α)) :=
  g.topo_sort.map reduceList

/-- Whether the payload of a node is a Block. -/
def isBlockNode (n : ThrillerNode ε α) : Bool :=
  match n.inner with
  | .Block _ _ => true
  | _ => false

/-- Modelled from the spec: a loop-group descriptor supplied by loop-nest
analysis (spec section 6); its contents are opaque to graph.rs. -/
structure LoopGroup where
  id : Nat
deriving DecidableEq

/-- The outcome of a call that may abort at runtime (the Rust todo!
placeholder, which panics) instead of returning a value. -/
inductive PanicOr (β : Type) where
  | panics (msg : String)
  | returns (val : β)
deriving DecidableEq

/-- ThrillerGraph::try_split (graph.rs lines 132-138): a slice holding
exactly one loop group returns None (no split); every other group count
reaches the todo! placeholder and aborts. -/
def ThrillerGraph.try_split (_g : ThrillerGraph ε α) (groups : List LoopGroup) :
    PanicOr (Option (List (ThrillerGraph ε α))) :=
  if groups.length = 1 then .returns none
  else .panics "try_split not implemented yet"

/-- ThrillerGraph::try_find_disconnected_subgraph (graph.rs lines 126-128):
every call reaches the todo! placeholder and aborts. -/
def ThrillerGraph.try_find_disconnected_subgraph (_g : ThrillerGraph ε α) :
    PanicOr (Option (List (ThrillerGraph ε α))) :=
  .panics "find_disconnected_subgraph not implemented yet"

/-- Nodes as the caller creates them, before graph assembly: empty adjacency
and zero in-degree (spec section 3). -/
def Pristine (g : ThrillerGraph ε α) : Prop :=
  ∀ n ∈ g.nodes, n.in_edges = [] ∧ n.out_edges = [] ∧ n.nexts = [] ∧
    n.prevs = [] ∧ n.in_degrees = 0

/-- Well-formed graph: node ids are process-unique, and every edge joins two
distinct member nodes (spec sections 3 and 7; an edge whose endpoints
coincide would make connect borrow the same RefCell mutably twice). -/
def Wf (g : ThrillerGraph ε α) : Prop :=
  (idsOf g.nodes).Nodup ∧
  ∀ e ∈ g.edges, e.src ∈ idsOf g.nodes ∧ e.dst ∈ idsOf g.nodes ∧ e.src ≠ e.dst

instance (g : ThrillerGraph ε α) : Decidable (Pristine g) :=
  decidable_of_iff
    (∀ n ∈ g.nodes, n.in_edges = [] ∧ n.out_edges = [] ∧ n.nexts = [] ∧
      n.prevs = [] ∧ n.in_degrees = 0) Iff.rfl

instance (g : ThrillerGraph ε α) : Decidable (Wf g) :=
  decidable_of_iff
    ((idsOf g.nodes).Nodup ∧
      ∀ e ∈ g.edges, e.src ∈ idsOf g.nodes ∧ e.dst ∈ idsOf g.nodes ∧ e.src ≠ e.dst) Iff.rfl

/-- Acyclicity of the edge set, witnessed by a rank function that strictly
increases along every edge. -/
def Acyclic (g : ThrillerGraph ε α) : Prop :=
  ∃ r : Nat → Nat, ∀ e ∈ g.edges, r e.src < r e.dst

/-- The graph contains a cycle: a nonempty set of member ids in which every
id has an incoming edge from within the set (the ids lying on any directed
cycle form such a set). -/
def HasCycleSet (g : ThrillerGraph ε α) : Prop :=
  ∃ c : List Nat, c ≠ [] ∧ (∀ k ∈ c, k ∈ idsOf g.nodes) ∧
    ∀ k ∈ c, ∃ p ∈ c, ∃ e ∈ g.edges, e.src = p ∧ e.dst = k

/-- The shape connect leaves each node in, as consumed by topo_sort: the
persistent in-degree counts the incoming edges, and the successor list holds
one destination per outgoing edge. -/
def Prepared (g : ThrillerGraph ε α) : Prop :=
  ∀ n ∈ g.nodes, n.in_degrees = (inEdgesTo g.edges n.id).length ∧
    n.nexts = (outEdgesFrom g.edges n.id).map ThrillerEdge.dst

/-- The number of edges into `k` whose source is still among the working-map
keys `K` (the value every live working-map entry carries, see the invariant
below). -/
def degAmong (es : List ThrillerEdge) (K : List Nat) (k : Nat) : Nat :=
  ((inEdgesTo es k).filter fun e => e.src ∈ K).length

/-- Every prefix of the list is closed under edge sources: whenever the
destination of an edge has appeared, its source has appeared no later.  For
a list with process-unique ids this says exactly that the source of every
edge precedes its destination. -/
def PredClosed (es : List ThrillerEdge) (l : List (ThrillerNode ε α)) : Prop :=
  ∀ nn : Nat, ∀ e ∈ es, e.dst ∈ idsOf (l.take nn) → e.src ∈ idsOf (l.take nn)

/-- The working-state invariant of topo_sort for a prepared graph `g`:
the threaded node store is the graph store; the working-map keys are distinct
member ids; the harvested ids and the live keys partition the member ids;
harvested nodes are member nodes; every live entry records the number of
incoming edges from live sources; and the harvested list respects the
edges. -/
def TopoInv (g : ThrillerGraph ε α) (st : TopoState ε α) : Prop :=
  st.nodes = g.nodes ∧
  (st.degrees.map Prod.fst).Nodup ∧
  (∀ k ∈ st.degrees.map Prod.fst, k ∈ idsOf g.nodes) ∧
  (idsOf st.sorted ++ st.degrees.map Prod.fst).Perm (idsOf g.nodes) ∧
  (∀ x ∈ st.sorted, x ∈ g.nodes) ∧
  (∀ p ∈ st.degrees, p.2 = degAmong g.edges (st.degrees.map Prod.fst) p.1) ∧
  PredClosed g.edges st.sorted

/-- A fresh Op node with trivial payloads, used in concrete examples. -/
def plainNode (i : Nat) : ThrillerNode Unit Unit :=
  { id := i, inner := .Other }

/-- The diamond scenario of spec section 8: nodes A, B, C with edges
A to B, A to C and B to C. -/
def diamondGraph : ThrillerGraph Unit Unit :=
  { id := 100, nodes := [plainNode 0, plainNode 1, plainNode 2],
    edges := [⟨10, 0, 1⟩, ⟨11, 0, 2⟩, ⟨12, 1, 2⟩] }

/-- The node with id 2 of the diamond graph after connect has been called
twice. -/
def diamondTwiceNode : ThrillerNode Unit Unit :=
  { id := 2, inner := .Other, in_edges := [11, 12, 11, 12], out_edges := [],
    nexts := [], prevs := [0, 1, 0, 1], in_degrees := 4 }

/-- A two-node chain: one edge from node 0 to node 1. -/
def chainGraph : ThrillerGraph Unit Unit :=
  { id := 200, nodes := [plainNode 0, plainNode 1], edges := [⟨5, 0, 1⟩] }

/-- The cycle scenario of spec section 8: edges A to B and B to A. -/
def cycleGraph : ThrillerGraph Unit Unit :=
  { id := 300, nodes := [plainNode 0, plainNode 1],
    edges := [⟨6, 0, 1⟩, ⟨7, 1, 0⟩] }

/-- An Op node whose emission yields the given fragment. -/
def opNode (i : Nat) (s : String) : ThrillerNode String Unit :=
  { id := i, inner := .Op (.ok s) }

/-- A three-node edgeless graph whose middle Op fails to emit. -/
def emitFailGraph : ThrillerGraph String Unit :=
  { id := 400,
    nodes := [opNode 0 "A", { id := 1, inner := .Op (.error "boom") }, opNode 2 "C"],
    edges := [] }

/-- A graph holding one plain node and one Block node that reduces to the
two hand-off descriptors 7 and 8. -/
def blockGraph : ThrillerGraph Unit Nat :=
  { id := 500,
    nodes := [{ id := 0, inner := .Other }, { id := 1, inner := .Block (.ok "b") (some [7, 8]) }],
    edges := [] }

/-- A one-node graph. -/
def unitGraph : ThrillerGraph Unit Unit :=
  { id := 600, nodes := [plainNode 0], edges := [] }

/-- The final working state of topo_sort on `unitGraph`. -/
def unitFinalState : TopoState Unit Unit :=
  { nodes := [plainNode 0], sorted := [plainNode 0], degrees := [] }

theorem exists_min_on_list (f : Nat → Nat) :
    ∀ l : List Nat, l ≠ [] → ∃ a ∈ l, ∀ b ∈ l, f a ≤ f b := by
  intro l
  induction l with
  | nil => intro h; exact absurd rfl h
  | cons x xs ih =>
    intro _
    rcases Decidable.em (xs = []) with hnil | hne
    · subst hnil
      exact ⟨x, List.mem_singleton_self x, by
        intro b hb
        rcases List.mem_singleton.1 hb with rfl
        exact le_refl _⟩
    · rcases ih hne with ⟨a, ha, hmin⟩
      rcases Nat.le_total (f x) (f a) with hxa | hax
      · refine ⟨x, List.mem_cons_self x xs, ?_⟩
        intro b hb
        rcases List.mem_cons.1 hb with rfl | hb
        · exact le_refl _
        · exact le_trans hxa (hmin b hb)
      · refine ⟨a, List.mem_cons_of_mem x ha, ?_⟩
        intro b hb
        rcases List.mem_cons.1 hb with rfl | hb
        · exact hax
        · exact hmin b hb

theorem connectNodeStep_id (n : ThrillerNode ε α) (e : ThrillerEdge) :
    (connectNodeStep n e).id = n.id := by
  simp only [connectNodeStep]
  split_ifs <;> rfl

theorem connectEdge_eq_map (ns : List (ThrillerNode ε α)) (e : ThrillerEdge) :
    connectEdge ns e = ns.map fun n => connectNodeStep n e := rfl

theorem foldl_connectEdge_eq (es : List ThrillerEdge) :
    ∀ ns : List (ThrillerNode ε α),
      es.foldl connectEdge ns = ns.map fun n => es.foldl connectNodeStep n := by
  induction es with
  | nil => intro ns; simp
  | cons e es ih =>
    intro ns
    rw [List.foldl_cons, ih, connectEdge_eq_map, List.map_map]
    rfl

theorem foldl_connectNodeStep_eq (es : List ThrillerEdge) :
    ∀ n : ThrillerNode ε α, es.foldl connectNodeStep n = connectFields es n := by
  induction es with
  | nil =>
    intro n
    simp [connectFields, inEdgesTo, outEdgesFrom]
  | cons e es ih =>
    intro n
    rw [List.foldl_cons, ih]
    rcases n with ⟨nid, nin, nie, noe, nx, np, nd⟩
    by_cases hs : nid = e.src
    · subst hs
      by_cases hd : e.src = e.dst
      · simp [connectNodeStep, connectFields, inEdgesTo, outEdgesFrom, List.filter_cons,
          hd, List.append_assoc, Nat.add_comm, Nat.add_left_comm, Nat.add_assoc]
      · simp [connectNodeStep, connectFields, inEdgesTo, outEdgesFrom, List.filter_cons,
          hd, Ne.symm hd, List.append_assoc, Nat.add_comm, Nat.add_left_comm, Nat.add_assoc]
    · by_cases hd : nid = e.dst
      · subst hd
        simp [connectNodeStep, connectFields, inEdgesTo, outEdgesFrom, List.filter_cons,
          hs, Ne.symm hs, List.append_assoc, Nat.add_comm, Nat.add_left_comm, Nat.add_assoc]
      · simp [connectNodeStep, connectFields, inEdgesTo, outEdgesFrom, List.filter_cons,
          hs, hd, Ne.symm hs, Ne.symm hd, List.append_assoc]

theorem connect_nodes_eq (g : ThrillerGraph ε α) :
    g.connect.nodes = g.nodes.map (connectFields g.edges) := by
  show g.edges.foldl connectEdge g.nodes = _
  rw [foldl_connectEdge_eq]
  exact List.map_congr_left fun n _ => foldl_connectNodeStep_eq g.edges n

theorem connect_edges_eq (g : ThrillerGraph ε α) : g.connect.edges = g.edges := rfl

theorem connectFields_id (es : List ThrillerEdge) (n : ThrillerNode ε α) :
    (connectFields es n).id = n.id := rfl

theorem connectFields_inner (es : List ThrillerEdge) (n : ThrillerNode ε α) :
    (connectFields es n).inner = n.inner := rfl

theorem idsOf_connect (g : ThrillerGraph ε α) :
    idsOf g.connect.nodes = idsOf g.nodes := by
  rw [idsOf, connect_nodes_eq, List.map_map]
  rfl

theorem Wf_connect (g : ThrillerGraph ε α) (h : Wf g) : Wf g.connect := by
  rcases h with ⟨hnd, he⟩
  refine ⟨?_, ?_⟩
  · rw [idsOf_connect]; exact hnd
  · intro e hm
    rw [connect_edges_eq] at hm
    rcases he e hm with ⟨h1, h2, h3⟩
    rw [idsOf_connect]
    exact ⟨h1, h2, h3⟩

theorem Acyclic_connect (g : ThrillerGraph ε α) (h : Acyclic g) : Acyclic g.connect := h

theorem Prepared_connect (g : ThrillerGraph ε α) (hp : Pristine g) : Prepared g.connect := by
  intro n hn
  rw [connect_nodes_eq] at hn
  rcases List.mem_map.1 hn with ⟨n0, hn0, rfl⟩
  rcases hp n0 hn0 with ⟨_, _, hx, _, hdeg⟩
  constructor
  · show (connectFields g.edges n0).in_degrees = _
    simp [connectFields, hdeg, connect_edges_eq]
  · show (connectFields g.edges n0).nexts = _
    simp [connectFields, hx, connect_edges_eq]

theorem sum_indicator_zero (v : Nat) :
    ∀ ids : List Nat, v ∉ ids → (ids.map fun i => if v = i then 1 else 0).sum = 0 := by
  intro ids
  induction ids with
  | nil => intro _; rfl
  | cons x xs ih =>
    intro h
    have hx : ¬ v = x := fun hvx => h (hvx ▸ List.mem_cons_self x xs)
    have hxs : v ∉ xs := fun hvxs => h (List.mem_cons_of_mem x hvxs)
    simp [hx, ih hxs]

theorem sum_indicator_one (v : Nat) :
    ∀ ids : List Nat, ids.Nodup → v ∈ ids →
      (ids.map fun i => if v = i then 1 else 0).sum = 1 := by
  intro ids
  induction ids with
  | nil => intro _ h; exact absurd h (List.not_mem_nil v)
  | cons x xs ih =>
    intro hnd hv
    rcases List.nodup_cons.1 hnd with ⟨hxnot, hxs⟩
    by_cases hvx : v = x
    · subst hvx
      simp [sum_indicator_zero v xs hxnot]
    · rcases List.mem_cons.1 hv with rfl | hvmem
      · exact absurd rfl hvx
      · simp [hvx, ih hxs hvmem]

theorem sum_length_filter_eq (f : ThrillerEdge → Nat) (ids : List Nat) (hnd : ids.Nodup) :
    ∀ es : List ThrillerEdge, (∀ e ∈ es, f e ∈ ids) →
      (ids.map fun i => (es.filter fun e => f e = i).length).sum = es.length := by
  intro es
  induction es with
  | nil => intro _; simp
  | cons e es ih =>
    intro hmem
    have hes : ∀ x ∈ es, f x ∈ ids := fun x hx => hmem x (List.mem_cons_of_mem e hx)
    have hcongr : (ids.map fun i => ((e :: es).filter fun x => f x = i).length) =
        ids.map fun i => (if f e = i then 1 else 0) + (es.filter fun x => f x = i).length := by
      refine List.map_congr_left fun i _ => ?_
      by_cases h : f e = i <;> simp [List.filter_cons, h, Nat.add_comm]
    rw [hcongr, List.sum_map_add, sum_indicator_one (f e) ids hnd (hmem e (List.mem_cons_self e es)),
      ih hes]
    simp [Nat.add_comm]

theorem connect_degree_counts (g : ThrillerGraph ε α) (hp : Pristine g) (hwf : Wf g) :
    ((g.connect.nodes.map fun n => n.out_edges.length).sum = g.edges.length) ∧
    ((g.connect.nodes.map fun n => n.in_degrees).sum = g.edges.length) ∧
    ∀ x ∈ g.connect.nodes, x.in_degrees = (inEdgesTo g.edges x.id).length := by
  rcases hwf with ⟨hnd, hed⟩
  refine ⟨?_, ?_, ?_⟩
  · rw [connect_nodes_eq, List.map_map]
    have h1 : (g.nodes.map ((fun n => n.out_edges.length) ∘ connectFields g.edges)) =
        g.nodes.map fun n => (outEdgesFrom g.edges n.id).length := by
      refine List.map_congr_left fun n hn => ?_
      rcases hp n hn with ⟨_, hoe, _, _, _⟩
      simp [connectFields, hoe]
    rw [h1]
    have h2 : (g.nodes.map fun n => (outEdgesFrom g.edges n.id).length) =
        (idsOf g.nodes).map fun i => (g.edges.filter fun e => e.src = i).length := by
      rw [idsOf, List.map_map]; rfl
    rw [h2]
    exact sum_length_filter_eq ThrillerEdge.src (idsOf g.nodes) hnd g.edges
      fun e he => (hed e he).1
  · rw [connect_nodes_eq, List.map_map]
    have h1 : (g.nodes.map ((fun n => n.in_degrees) ∘ connectFields g.edges)) =
        g.nodes.map fun n => (inEdgesTo g.edges n.id).length := by
      refine List.map_congr_left fun n hn => ?_
      rcases hp n hn with ⟨_, _, _, _, hdeg⟩
      simp [connectFields, hdeg]
    rw [h1]
    have h2 : (g.nodes.map fun n => (inEdgesTo g.edges n.id).length) =
        (idsOf g.nodes).map fun i => (g.edges.filter fun e => e.dst = i).length := by
      rw [idsOf, List.map_map]; rfl
    rw [h2]
    exact sum_length_filter_eq ThrillerEdge.dst (idsOf g.nodes) hnd g.edges
      fun e he => (hed e he).2.1
  · intro x hx
    rw [connect_nodes_eq] at hx
    rcases List.mem_map.1 hx with ⟨n0, hn0, rfl⟩
    rcases hp n0 hn0 with ⟨_, _, _, _, hdeg⟩
    simp [connectFields, hdeg]

theorem connect_degree_counts_witness :
    ((diamondGraph.connect.nodes.map fun n => n.out_edges.length).sum =
      diamondGraph.edges.length) ∧
    ((diamondGraph.connect.nodes.map fun n => n.in_degrees).sum = diamondGraph.edges.length) ∧
    ∀ x ∈ diamondGraph.connect.nodes,
      x.in_degrees = (inEdgesTo diamondGraph.edges x.id).length :=
  connect_degree_counts diamondGraph (by decide) (by decide)

theorem connect_twice_double_counts (g : ThrillerGraph ε α) (hp : Pristine g) (_hwf : Wf g) :
    ∀ x ∈ g.connect.connect.nodes,
      x.in_degrees = 2 * (inEdgesTo g.edges x.id).length ∧
      x.in_edges = (inEdgesTo g.edges x.id).map ThrillerEdge.id ++
        (inEdgesTo g.edges x.id).map ThrillerEdge.id ∧
      x.prevs = (inEdgesTo g.edges x.id).map ThrillerEdge.src ++
        (inEdgesTo g.edges x.id).map ThrillerEdge.src ∧
      x.out_edges = (outEdgesFrom g.edges x.id).map ThrillerEdge.id ++
        (outEdgesFrom g.edges x.id).map ThrillerEdge.id ∧
      x.nexts = (outEdgesFrom g.edges x.id).map ThrillerEdge.dst ++
        (outEdgesFrom g.edges x.id).map ThrillerEdge.dst := by
  intro x hx
  rw [connect_nodes_eq, connect_edges_eq, connect_nodes_eq, List.map_map] at hx
  rcases List.mem_map.1 hx with ⟨n0, hn0, rfl⟩
  rcases hp n0 hn0 with ⟨hie, hoe, hx0, hpv, hdeg⟩
  refine ⟨?_, ?_, ?_, ?_, ?_⟩ <;>
    simp [connectFields, hie, hoe, hx0, hpv, hdeg, Nat.two_mul]

theorem connect_twice_double_counts_witness :
    diamondTwiceNode.in_degrees =
      2 * (inEdgesTo diamondGraph.edges diamondTwiceNode.id).length ∧
    diamondTwiceNode.in_edges =
      (inEdgesTo diamondGraph.edges diamondTwiceNode.id).map ThrillerEdge.id ++
        (inEdgesTo diamondGraph.edges diamondTwiceNode.id).map ThrillerEdge.id ∧
    diamondTwiceNode.prevs =
      (inEdgesTo diamondGraph.edges diamondTwiceNode.id).map ThrillerEdge.src ++
        (inEdgesTo diamondGraph.edges diamondTwiceNode.id).map ThrillerEdge.src ∧
    diamondTwiceNode.out_edges =
      (outEdgesFrom diamondGraph.edges diamondTwiceNode.id).map ThrillerEdge.id ++
        (outEdgesFrom diamondGraph.edges diamondTwiceNode.id).map ThrillerEdge.id ∧
    diamondTwiceNode.nexts =
      (outEdgesFrom diamondGraph.edges diamondTwiceNode.id).map ThrillerEdge.dst ++
        (outEdgesFrom diamondGraph.edges diamondTwiceNode.id).map ThrillerEdge.dst :=
  connect_twice_double_counts diamondGraph (by decide) (by decide) diamondTwiceNode
    (by decide)

theorem lookupDeg_eq_none {m : List (Nat × Nat)} {k : Nat} :
    lookupDeg m k = none ↔ k ∉ m.map Prod.fst := by
  rw [lookupDeg, Option.map_eq_none', List.find?_eq_none]
  constructor
  · intro h hk
    rcases List.mem_map.1 hk with ⟨p, hp, rfl⟩
    have hh := h p hp
    simp at hh
  · intro h p hp
    simp only [decide_eq_true_eq]
    intro hpk
    exact h (List.mem_map.2 ⟨p, hp, hpk⟩)

theorem lookupDeg_mem {m : List (Nat × Nat)} {k d : Nat} (h : lookupDeg m k = some d) :
    (k, d) ∈ m := by
  rcases hf : m.find? fun p => p.1 = k with _ | p
  · rw [lookupDeg, hf] at h; exact absurd h (by simp)
  · have hk : p.1 = k := by
      have := List.find?_some hf
      simpa using this
    have hd : p.2 = d := by
      rw [lookupDeg, hf] at h; simpa using h
    have hm := List.mem_of_find?_eq_some hf
    rw [← hk, ← hd]
    simpa using hm

theorem mem_keys_of_lookupDeg {m : List (Nat × Nat)} {k d : Nat}
    (h : lookupDeg m k = some d) : k ∈ m.map Prod.fst :=
  List.mem_map.2 ⟨(k, d), lookupDeg_mem h, rfl⟩

theorem lookupDeg_of_mem_nodup {m : List (Nat × Nat)} (hnd : (m.map Prod.fst).Nodup)
    {k d : Nat} (h : (k, d) ∈ m) : lookupDeg m k = some d := by
  induction m with
  | nil => exact absurd h (List.not_mem_nil _)
  | cons p m ih =>
    have hnd2 : (∀ x, (p.1, x) ∉ m) ∧ (m.map Prod.fst).Nodup := by simpa using hnd
    rcases hnd2 with ⟨hp, hm⟩
    rcases List.mem_cons.1 h with heq | hmem
    · rw [← heq]
      simp [lookupDeg]
    · have hpk : ¬ p.1 = k := by
        intro hk
        exact hp d (by rw [hk]; exact hmem)
      simpa [lookupDeg, List.find?_cons, hpk] using ih hm hmem

theorem keys_decDeg (m : List (Nat × Nat)) (k : Nat) :
    (decDeg m k).map Prod.fst = m.map Prod.fst := by
  rw [decDeg, List.map_map]
  refine List.map_congr_left fun p _ => ?_
  by_cases h : p.1 = k <;> simp [h]

theorem keys_foldl_decDeg (xs : List Nat) :
    ∀ m : List (Nat × Nat), ((xs.foldl decDeg m).map Prod.fst) = m.map Prod.fst := by
  induction xs with
  | nil => intro m; rfl
  | cons x xs ih => intro m; rw [List.foldl_cons, ih, keys_decDeg]

theorem length_foldl_decDeg (xs : List Nat) (m : List (Nat × Nat)) :
    (xs.foldl decDeg m).length = m.length := by
  have := congrArg List.length (keys_foldl_decDeg xs m)
  simpa using this

theorem foldl_decDeg_eq (xs : List Nat) :
    ∀ m : List (Nat × Nat), xs.foldl decDeg m = m.map fun p => (p.1, p.2 - xs.count p.1) := by
  induction xs with
  | nil => intro m; simp
  | cons x xs ih =>
    intro m
    rw [List.foldl_cons, ih, decDeg, List.map_map]
    refine List.map_congr_left fun p _ => ?_
    by_cases h : p.1 = x <;>
      simp [h, List.count_cons] <;> omega

theorem keys_removeKey (m : List (Nat × Nat)) (k : Nat) :
    (removeKey m k).map Prod.fst = (m.map Prod.fst).filter fun x => ¬ x = k := by
  induction m with
  | nil => rfl
  | cons p m ih =>
    by_cases h : p.1 = k <;> simp [removeKey, List.filter_cons, h] <;>
      simpa [removeKey] using ih

theorem mem_removeKey {m : List (Nat × Nat)} {k : Nat} {p : Nat × Nat} :
    p ∈ removeKey m k ↔ p ∈ m ∧ ¬ p.1 = k := by
  simp [removeKey, List.mem_filter]

theorem length_removeKey_lt {m : List (Nat × Nat)} {k : Nat} (h : k ∈ m.map Prod.fst) :
    (removeKey m k).length < m.length := by
  rcases List.mem_map.1 h with ⟨p, hp, rfl⟩
  exact List.length_filter_lt_length_iff_exists.2 ⟨p, hp, by simp⟩

theorem length_removeKey_le (m : List (Nat × Nat)) (k : Nat) :
    (removeKey m k).length ≤ m.length :=
  List.length_filter_le _ m

theorem topoStep_no_key {st : TopoState ε α} {k : Nat}
    (h : lookupDeg st.degrees k = none) : topoStep st k = st := by
  simp [topoStep, h]

theorem topoStep_pos {st : TopoState ε α} {k d : Nat}
    (h : lookupDeg st.degrees k = some d) (hd : ¬ d = 0) : topoStep st k = st := by
  simp [topoStep, h, hd]

theorem topoStep_no_node {st : TopoState ε α} {k : Nat}
    (h : lookupDeg st.degrees k = some 0) (h2 : findNode st.nodes k = none) :
    topoStep st k = st := by
  simp [topoStep, h, h2]

theorem topoStep_harvest {st : TopoState ε α} {k : Nat} {node : ThrillerNode ε α}
    (h : lookupDeg st.degrees k = some 0) (h2 : findNode st.nodes k = some node) :
    topoStep st k =
      { st with sorted := st.sorted ++ [node],
                degrees := removeKey (node.nexts.foldl decDeg st.degrees) k } := by
  simp [topoStep, h, h2]

theorem topoStep_nodes (st : TopoState ε α) (k : Nat) : (topoStep st k).nodes = st.nodes := by
  rcases h : lookupDeg st.degrees k with _ | d
  · rw [topoStep_no_key h]
  · by_cases hd : d = 0
    · subst hd
      rcases h2 : findNode st.nodes k with _ | node
      · rw [topoStep_no_node h h2]
      · rw [topoStep_harvest h h2]
    · rw [topoStep_pos h hd]

theorem topoStep_degrees_le (st : TopoState ε α) (k : Nat) :
    (topoStep st k).degrees.length ≤ st.degrees.length := by
  rcases h : lookupDeg st.degrees k with _ | d
  · rw [topoStep_no_key h]
  · by_cases hd : d = 0
    · subst hd
      rcases h2 : findNode st.nodes k with _ | node
      · rw [topoStep_no_node h h2]
      · rw [topoStep_harvest h h2]
        show (removeKey (node.nexts.foldl decDeg st.degrees) k).length ≤ st.degrees.length
        calc (removeKey (node.nexts.foldl decDeg st.degrees) k).length
            ≤ (node.nexts.foldl decDeg st.degrees).length := length_removeKey_le _ _
          _ = st.degrees.length := length_foldl_decDeg _ _
    · rw [topoStep_pos h hd]

theorem topoStep_eq_or_lt (st : TopoState ε α) (k : Nat) :
    topoStep st k = st ∨ (topoStep st k).degrees.length < st.degrees.length := by
  rcases h : lookupDeg st.degrees k with _ | d
  · exact Or.inl (topoStep_no_key h)
  · by_cases hd : d = 0
    · subst hd
      rcases h2 : findNode st.nodes k with _ | node
      · exact Or.inl (topoStep_no_node h h2)
      · refine Or.inr ?_
        rw [topoStep_harvest h h2]
        have hk : k ∈ (node.nexts.foldl decDeg st.degrees).map Prod.fst := by
          rw [keys_foldl_decDeg]
          exact mem_keys_of_lookupDeg h
        show (removeKey (node.nexts.foldl decDeg st.degrees) k).length < st.degrees.length
        calc (removeKey (node.nexts.foldl decDeg st.degrees) k).length
            < (node.nexts.foldl decDeg st.degrees).length := length_removeKey_lt hk
          _ = st.degrees.length := length_foldl_decDeg _ _
    · exact Or.inl (topoStep_pos h hd)

theorem topoPass_nodes (ks : List Nat) :
    ∀ st : TopoState ε α, (topoPass st ks).nodes = st.nodes := by
  induction ks with
  | nil => intro st; rfl
  | cons k ks ih =>
    intro st
    show (topoPass (topoStep st k) ks).nodes = st.nodes
    rw [ih, topoStep_nodes]

theorem topoPass_degrees_le (ks : List Nat) :
    ∀ st : TopoState ε α, (topoPass st ks).degrees.length ≤ st.degrees.length := by
  induction ks with
  | nil => intro st; exact le_refl _
  | cons k ks ih =>
    intro st
    exact le_trans (ih (topoStep st k)) (topoStep_degrees_le st k)

theorem degAmong_eq_countP (es : List ThrillerEdge) (K : List Nat) (v : Nat) :
    degAmong es K v = es.countP fun e => decide (e.src ∈ K) && decide (e.dst = v) := by
  rw [degAmong, inEdgesTo, ← List.countP_eq_length_filter, List.countP_filter]

theorem edgesBetween_length_eq (es : List ThrillerEdge) (u v : Nat) :
    (edgesBetween es u v).length = es.countP fun e => decide (e.src = u ∧ e.dst = v) := by
  rw [edgesBetween, ← List.countP_eq_length_filter]

theorem countP_split {β : Type} (P Q R : β → Bool)
    (h : ∀ b, P b = (Q b || R b)) (hx : ∀ b, ¬(Q b = true ∧ R b = true)) :
    ∀ l : List β, l.countP P = l.countP Q + l.countP R := by
  intro l
  induction l with
  | nil => simp
  | cons b l ih =>
    rw [List.countP_cons, List.countP_cons, List.countP_cons, ih, h b]
    cases hq : Q b <;> cases hr : R b
    · simp [hq, hr]
    · simp [hq, hr]
      try omega
    · simp [hq, hr]
      try omega
    · exact absurd ⟨hq, hr⟩ (hx b)

theorem degAmong_split (es : List ThrillerEdge) {K : List Nat} {k : Nat}
    (hnd : K.Nodup) (hk : k ∈ K) (v : Nat) :
    degAmong es K v =
      degAmong es (K.filter fun x => ¬ x = k) v + (edgesBetween es k v).length := by
  rw [degAmong_eq_countP, degAmong_eq_countP, edgesBetween_length_eq]
  have hknot : k ∉ K.filter fun x => ¬ x = k := by
    intro hmem
    have := List.mem_filter.1 hmem
    simp at this
  refine countP_split _ _ _ (fun e => ?_) (fun e => ?_) es
  · by_cases h1 : e.dst = v
    · by_cases h2 : e.src ∈ K
      · by_cases h3 : e.src = k
        · have h4 : k ∈ K := h3 ▸ h2
          simp [h1, h2, h3, h4, hknot]
        · have : e.src ∈ K.filter fun x => ¬ x = k :=
            List.mem_filter.2 ⟨h2, by simpa using h3⟩
          simp [h1, h2, h3, this]
      · have : e.src ∉ K.filter fun x => ¬ x = k := fun hmem =>
          h2 (List.mem_filter.1 hmem).1
        have h3 : ¬ e.src = k := fun hek => h2 (hek ▸ hk)
        simp [h1, h2, h3, this]
    · simp [h1]
  · rintro ⟨hq, hr⟩
    simp only [Bool.and_eq_true, decide_eq_true_eq] at hq hr
    exact hknot (hr.1 ▸ hq.1)

theorem count_nexts_eq (es : List ThrillerEdge) (k v : Nat) :
    ((outEdgesFrom es k).map ThrillerEdge.dst).count v = (edgesBetween es k v).length := by
  rw [List.count_eq_countP, List.countP_map, outEdgesFrom, List.countP_filter,
    edgesBetween_length_eq]
  refine List.countP_congr fun e _ => ?_
  constructor
  · intro h
    simp only [Function.comp, Bool.and_eq_true, beq_iff_eq, decide_eq_true_eq] at h
    simp [h.1, h.2]
  · intro h
    simp only [decide_eq_true_eq] at h
    simp [Function.comp, h.1, h.2]

theorem idsOf_append (l₁ l₂ : List (ThrillerNode ε α)) :
    idsOf (l₁ ++ l₂) = idsOf l₁ ++ idsOf l₂ := by
  rw [idsOf, idsOf, idsOf, List.map_append]

theorem nodup_perm_cons_filter {K : List Nat} (hnd : K.Nodup) {k : Nat} (hk : k ∈ K) :
    K.Perm (k :: K.filter fun x => ¬ x = k) := by
  induction K with
  | nil => cases hk
  | cons a K ih =>
    rcases List.nodup_cons.1 hnd with ⟨haK, hKnd⟩
    rcases List.mem_cons.1 hk with rfl | hmem
    · have hfix : K.filter (fun x => ¬ x = k) = K := by
        refine List.filter_eq_self.2 fun b hb => ?_
        have hbk : ¬ b = k := fun hba => haK (hba ▸ hb)
        simpa using hbk
      have hfc : (k :: K).filter (fun x => ¬ x = k) = K := by
        simpa [List.filter_cons] using hfix
      rw [hfc]
    · have hak : ¬ a = k := fun hak => haK (hak ▸ hmem)
      have ihp := ih hKnd hmem
      have hfc : (a :: K).filter (fun x => ¬ x = k) =
          a :: K.filter fun x => ¬ x = k := by
        simp [List.filter_cons, hak]
      rw [hfc]
      exact (ihp.cons a).trans (List.Perm.swap k a _)

theorem predClosed_append {es : List ThrillerEdge} {l : List (ThrillerNode ε α)}
    {x : ThrillerNode ε α} (hpc : PredClosed es l)
    (hx : ∀ e ∈ es, e.dst = x.id → e.src ∈ idsOf l) : PredClosed es (l ++ [x]) := by
  intro nn e he hdst
  by_cases hnn : nn ≤ l.length
  · have hzero : nn - l.length = 0 := by omega
    rw [List.take_append_eq_append_take, hzero, List.take_zero, List.append_nil] at hdst ⊢
    exact hpc nn e he hdst
  · have hTake : (l ++ [x]).take nn = l ++ [x] :=
      List.take_of_length_le (by simp; omega)
    rw [hTake, idsOf_append] at hdst ⊢
    rcases List.mem_append.1 hdst with hmem | hmem
    · have := hpc l.length e he (by rw [List.take_length]; exact hmem)
      rw [List.take_length] at this
      exact List.mem_append.2 (Or.inl this)
    · have hdx : e.dst = x.id := by simpa [idsOf] using hmem
      exact List.mem_append.2 (Or.inl (hx e he hdx))

theorem findNode_id {ns : List (ThrillerNode ε α)} {k : Nat} {node : ThrillerNode ε α}
    (h : findNode ns k = some node) : node.id = k ∧ node ∈ ns := by
  constructor
  · have := List.find?_some h
    simpa using this
  · exact List.mem_of_find?_eq_some h

theorem topoStep_inv {g : ThrillerGraph ε α} (hwf : Wf g) (hpre : Prepared g)
    {st : TopoState ε α} (hinv : TopoInv g st) (k : Nat) : TopoInv g (topoStep st k) := by
  rcases h : lookupDeg st.degrees k with _ | d
  · rw [topoStep_no_key h]; exact hinv
  · by_cases hd : d = 0
    · subst hd
      rcases h2 : findNode st.nodes k with _ | node
      · rw [topoStep_no_node h h2]; exact hinv
      · rw [topoStep_harvest h h2]
        obtain ⟨hnodes, hnd, hksub, hperm, hsorted, hdeg, hpc⟩ := hinv
        obtain ⟨hnodeid, hnodemem0⟩ := findNode_id h2
        have hnodemem : node ∈ g.nodes := hnodes ▸ hnodemem0
        have hkK : k ∈ st.degrees.map Prod.fst := mem_keys_of_lookupDeg h
        have hkd : (k, 0) ∈ st.degrees := lookupDeg_mem h
        have hdeg0 : degAmong g.edges (st.degrees.map Prod.fst) k = 0 := (hdeg (k, 0) hkd).symm
        obtain ⟨hndeg, hnx⟩ := hpre node hnodemem
        have hkeys' : (removeKey (node.nexts.foldl decDeg st.degrees) k).map Prod.fst =
            (st.degrees.map Prod.fst).filter fun x => ¬ x = k := by
          rw [keys_removeKey, keys_foldl_decDeg]
        have hKperm : (st.degrees.map Prod.fst).Perm
            (k :: (st.degrees.map Prod.fst).filter fun x => ¬ x = k) :=
          nodup_perm_cons_filter hnd hkK
        have hsrcnotK : ∀ e ∈ g.edges, e.dst = k → e.src ∉ st.degrees.map Prod.fst := by
          intro e he hedst hesrc
          have hcnt : 0 < g.edges.countP fun e =>
              decide (e.src ∈ st.degrees.map Prod.fst) && decide (e.dst = k) :=
            List.countP_pos.2 ⟨e, he, by simp [hesrc, hedst]⟩
          rw [← degAmong_eq_countP, hdeg0] at hcnt
          exact absurd hcnt (by simp)
        refine ⟨?_, ?_, ?_, ?_, ?_, ?_, ?_⟩
        · exact hnodes
        · rw [hkeys']; exact hnd.filter _
        · rw [hkeys']
          intro k2 hk2
          exact hksub k2 (List.mem_filter.1 hk2).1
        · rw [hkeys', idsOf_append]
          have hidx : idsOf [node] = [k] := by simp [idsOf, hnodeid]
          rw [hidx]
          have hassoc : (idsOf st.sorted ++ [k]) ++
              ((st.degrees.map Prod.fst).filter fun x => ¬ x = k) =
              idsOf st.sorted ++
                (k :: (st.degrees.map Prod.fst).filter fun x => ¬ x = k) := by
            rw [List.append_assoc]
            rfl
          rw [hassoc]
          exact (List.Perm.append_left (idsOf st.sorted) hKperm.symm).trans hperm
        · intro x hx
          rcases List.mem_append.1 hx with hx | hx
          · exact hsorted x hx
          · rw [List.mem_singleton.1 hx]
            exact hnodemem
        · intro p hp
          rcases mem_removeKey.1 hp with ⟨hpfold, hpk⟩
          rw [foldl_decDeg_eq] at hpfold
          rcases List.mem_map.1 hpfold with ⟨q, hq, hqp⟩
          have hq2 := hdeg q hq
          have hcount : q.2 ≥ (edgesBetween g.edges k q.1).length := by
            rw [hq2, degAmong_split g.edges hnd hkK q.1]
            omega
          have hcnt_eq : node.nexts.count q.1 = (edgesBetween g.edges k q.1).length := by
            rw [hnx, hnodeid]
            exact count_nexts_eq g.edges k q.1
          rw [hkeys']
          rw [← hqp]
          show q.2 - node.nexts.count q.1 =
            degAmong g.edges ((st.degrees.map Prod.fst).filter fun x => ¬ x = k) q.1
          rw [hcnt_eq, hq2, degAmong_split g.edges hnd hkK q.1]
          omega
        · refine predClosed_append hpc ?_
          intro e he hedst
          have hesrc_id : e.src ∈ idsOf g.nodes := ((hwf.2 e he).1)
          have hesrc_split : e.src ∈ idsOf st.sorted ++ st.degrees.map Prod.fst :=
            hperm.symm.mem_iff.1 hesrc_id
          rcases List.mem_append.1 hesrc_split with hmem | hmem
          · exact hmem
          · exact absurd hmem (hsrcnotK e he (hnodeid ▸ hedst))
    · rw [topoStep_pos h hd]; exact hinv

theorem topoPass_inv {g : ThrillerGraph ε α} (hwf : Wf g) (hpre : Prepared g) (ks : List Nat) :
    ∀ {st : TopoState ε α}, TopoInv g st → TopoInv g (topoPass st ks) := by
  induction ks with
  | nil => intro st h; exact h
  | cons k ks ih =>
    intro st h
    exact ih (topoStep_inv hwf hpre h k)

theorem topoStep_harvest_lt {g : ThrillerGraph ε α} {st : TopoState ε α}
    (hinv : TopoInv g st) {k : Nat} (h : lookupDeg st.degrees k = some 0) :
    (topoStep st k).degrees.length < st.degrees.length := by
  obtain ⟨hnodes, hnd, hksub, hperm, hsorted, hdeg, hpc⟩ := hinv
  have hkK : k ∈ st.degrees.map Prod.fst := mem_keys_of_lookupDeg h
  have hkid : k ∈ idsOf g.nodes := hksub k hkK
  rcases List.mem_map.1 hkid with ⟨n, hn, hnid⟩
  have hfind : (findNode st.nodes k).isSome := by
    rw [hnodes, findNode]
    exact List.find?_isSome.2 ⟨n, hn, by simp [hnid]⟩
  rcases h2 : findNode st.nodes k with _ | node
  · rw [h2] at hfind
    simp at hfind
  · rw [topoStep_harvest h h2]
    have hk2 : k ∈ (node.nexts.foldl decDeg st.degrees).map Prod.fst := by
      rw [keys_foldl_decDeg]
      exact hkK
    show (removeKey (node.nexts.foldl decDeg st.degrees) k).length < st.degrees.length
    calc (removeKey (node.nexts.foldl decDeg st.degrees) k).length
        < (node.nexts.foldl decDeg st.degrees).length := length_removeKey_lt hk2
      _ = st.degrees.length := length_foldl_decDeg _ _

theorem topoPass_progress {g : ThrillerGraph ε α} (hwf : Wf g) (hpre : Prepared g)
    (ks : List Nat) :
    ∀ {st : TopoState ε α}, TopoInv g st →
      (∃ k ∈ ks, lookupDeg st.degrees k = some 0) →
      (topoPass st ks).degrees.length < st.degrees.length := by
  induction ks with
  | nil =>
    rintro st _ ⟨k, hk, _⟩
    cases hk
  | cons k0 ks ih =>
    rintro st hinv ⟨k, hk, hk0⟩
    rcases topoStep_eq_or_lt st k0 with heq | hlt
    · rcases List.mem_cons.1 hk with rfl | hkmem
      · have hh := topoStep_harvest_lt hinv hk0
        rw [heq] at hh
        exact absurd hh (lt_irrefl _)
      · show (topoPass (topoStep st k0) ks).degrees.length < st.degrees.length
        rw [heq]
        exact ih hinv ⟨k, hkmem, hk0⟩
    · show (topoPass (topoStep st k0) ks).degrees.length < st.degrees.length
      exact lt_of_le_of_lt (topoPass_degrees_le ks _) hlt

theorem exists_zero_key {g : ThrillerGraph ε α} (hacy : Acyclic g) {st : TopoState ε α}
    (hinv : TopoInv g st) (hne : st.degrees ≠ []) :
    ∃ k ∈ st.degrees.map Prod.fst, lookupDeg st.degrees k = some 0 := by
  obtain ⟨hnodes, hnd, hksub, hperm, hsorted, hdeg, hpc⟩ := hinv
  rcases hacy with ⟨r, hr⟩
  have hKne : st.degrees.map Prod.fst ≠ [] := by
    intro hh
    exact hne (List.map_eq_nil.1 hh)
  rcases exists_min_on_list r _ hKne with ⟨k, hkK, hkmin⟩
  rcases List.mem_map.1 hkK with ⟨p, hp, hpk⟩
  have hdp := hdeg p hp
  have hzero : degAmong g.edges (st.degrees.map Prod.fst) p.1 = 0 := by
    rw [degAmong_eq_countP]
    refine List.countP_eq_zero.2 fun e he => ?_
    intro hcontra
    simp only [Bool.and_eq_true, decide_eq_true_eq] at hcontra
    rcases hcontra with ⟨hsrc, hdst⟩
    have h1 : r e.src < r e.dst := hr e he
    have h2 : r k ≤ r e.src := hkmin _ hsrc
    rw [hdst, hpk] at h1
    omega
  have hp0 : p.2 = 0 := hdp.trans hzero
  have h5 : (p.1, p.2) ∈ st.degrees := by simpa using hp
  rw [hp0] at h5
  exact ⟨k, hkK, hpk ▸ lookupDeg_of_mem_nodup hnd h5⟩

theorem topoInit_inv {g : ThrillerGraph ε α} (hwf : Wf g) (hpre : Prepared g) :
    TopoInv g (topoInit g) := by
  obtain ⟨hnd, hed⟩ := hwf
  have hkeys : (topoInit g).degrees.map Prod.fst = idsOf g.nodes := by
    show (g.nodes.map fun n => (n.id, n.in_degrees)).map Prod.fst = idsOf g.nodes
    rw [List.map_map]
    rfl
  refine ⟨rfl, ?_, ?_, ?_, ?_, ?_, ?_⟩
  · rw [hkeys]; exact hnd
  · rw [hkeys]; intro k hk; exact hk
  · rw [hkeys]
    show idsOf ([] : List (ThrillerNode ε α)) ++ idsOf g.nodes |>.Perm (idsOf g.nodes)
    simp [idsOf]
  · intro x hx
    exact absurd hx (List.not_mem_nil x)
  · intro p hp
    rcases List.mem_map.1 hp with ⟨n, hn, rfl⟩
    rw [hkeys]
    show n.in_degrees = degAmong g.edges (idsOf g.nodes) n.id
    rw [(hpre n hn).1, degAmong]
    have hall : (inEdgesTo g.edges n.id).filter (fun e => e.src ∈ idsOf g.nodes) =
        inEdgesTo g.edges n.id := by
      refine List.filter_eq_self.2 fun e he => ?_
      have hmem : e ∈ g.edges := (List.mem_filter.1 he).1
      simpa using (hed e hmem).1
    rw [hall]
  · intro nn e _ hmem
    simp [topoInit, idsOf] at hmem

theorem topoLoop_total {g : ThrillerGraph ε α} (hwf : Wf g) (hpre : Prepared g)
    (hacy : Acyclic g) {sel : Nat → List Nat → List Nat}
    (hsel : ∀ i ks, (sel i ks).Perm ks) :
    ∀ fuel i (st : TopoState ε α), TopoInv g st → st.degrees.length ≤ fuel →
      ∃ st', topoLoop sel fuel i st = some st' ∧ TopoInv g st' ∧ st'.degrees = [] := by
  intro fuel
  induction fuel with
  | zero =>
    intro i st hinv hlen
    have hemp : st.degrees = [] := List.length_eq_zero.1 (Nat.le_zero.1 hlen)
    exact ⟨st, by simp [topoLoop, hemp], hinv, hemp⟩
  | succ fuel ih =>
    intro i st hinv hlen
    by_cases hempty : st.degrees = []
    · exact ⟨st, by simp [topoLoop, hempty], hinv, hempty⟩
    · have hloop : topoLoop sel (fuel + 1) i st =
          topoLoop sel fuel (i + 1) (topoPass st (sel i (st.degrees.map Prod.fst))) := by
        simp [topoLoop, List.isEmpty_iff, hempty]
      rcases exists_zero_key hacy hinv hempty with ⟨k, hkK, hk0⟩
      have hkmem : k ∈ sel i (st.degrees.map Prod.fst) := ((hsel i _).mem_iff).2 hkK
      have hlt := topoPass_progress hwf hpre (sel i (st.degrees.map Prod.fst)) hinv
        ⟨k, hkmem, hk0⟩
      have hinv2 := topoPass_inv hwf hpre (sel i (st.degrees.map Prod.fst)) hinv
      have hlen2 : (topoPass st (sel i (st.degrees.map Prod.fst))).degrees.length ≤ fuel := by
        omega
      rcases ih (i + 1) _ hinv2 hlen2 with ⟨st', hst', hinv', hemp⟩
      exact ⟨st', hloop ▸ hst', hinv', hemp⟩

theorem perm_of_ids {ns l : List (ThrillerNode ε α)} (hnd : (idsOf ns).Nodup)
    (hsub : ∀ x ∈ l, x ∈ ns) (hp : (idsOf l).Perm (idsOf ns)) : l.Perm ns := by
  have hinj := List.inj_on_of_nodup_map (f := ThrillerNode.id) (l := ns) hnd
  have hlnd : l.Nodup := ((hp.nodup_iff).2 hnd).of_map _
  have hnsnd : ns.Nodup := hnd.of_map _
  refine (hlnd.subperm fun x hx => hsub x hx).antisymm (hnsnd.subperm ?_)
  intro x hx
  have hxid : x.id ∈ idsOf l := hp.symm.mem_iff.1 (List.mem_map.2 ⟨x, hx, rfl⟩)
  rcases List.mem_map.1 hxid with ⟨y, hy, hyx⟩
  have hyex : y = x := hinj (hsub y hy) hx hyx
  rw [← hyex]
  exact hy

theorem connect_nodes_length (g : ThrillerGraph ε α) :
    g.connect.nodes.length = g.nodes.length := by
  rw [connect_nodes_eq, List.length_map]

theorem topoSortRun_correct (g0 : ThrillerGraph ε α)
    (hp : Pristine g0) (hwf : Wf g0) (hacy : Acyclic g0)
    (sel : Nat → List Nat → List Nat) (hsel : ∀ i ks, (sel i ks).Perm ks)
    (fuel : Nat) (hfuel : g0.nodes.length ≤ fuel) :
    ∃ st' : TopoState ε α, topoSortRun sel fuel g0.connect = some st' ∧
      st'.sorted.Perm g0.connect.nodes ∧
      ∀ e ∈ g0.edges, ∀ l₁ (v : ThrillerNode ε α) l₂, st'.sorted = l₁ ++ v :: l₂ →
        v.id = e.dst → e.src ∈ idsOf l₁ := by
  have hwfG : Wf g0.connect := Wf_connect g0 hwf
  have hpreG : Prepared g0.connect := Prepared_connect g0 hp
  have hacyG : Acyclic g0.connect := hacy
  have hinv0 := topoInit_inv hwfG hpreG
  have hlen0 : (topoInit g0.connect).degrees.length ≤ fuel := by
    show ((g0.connect.nodes.map fun n => (n.id, n.in_degrees)).length) ≤ fuel
    rw [List.length_map, connect_nodes_length]
    exact hfuel
  rcases topoLoop_total hwfG hpreG hacyG hsel fuel 0 _ hinv0 hlen0 with
    ⟨st', hrun, hinv', hemp⟩
  obtain ⟨hnodes, hnd, hksub, hperm, hsorted, hdeg, hpc⟩ := hinv'
  refine ⟨st', hrun, ?_, ?_⟩
  · refine perm_of_ids hwfG.1 hsorted ?_
    rw [hemp] at hperm
    simpa using hperm
  · intro e he l₁ v l₂ hsplit hvdst
    have htake : (l₁ ++ v :: l₂).take (l₁.length + 1) = l₁ ++ [v] := by
      rw [List.take_append_eq_append_take, List.take_of_length_le (by omega)]
      simp
    have hdstmem : e.dst ∈ idsOf (st'.sorted.take (l₁.length + 1)) := by
      rw [hsplit, htake, idsOf_append]
      exact List.mem_append.2 (Or.inr (by simp [idsOf, hvdst]))
    have hsrcmem := hpc (l₁.length + 1) e he hdstmem
    rw [hsplit, htake, idsOf_append] at hsrcmem
    rcases List.mem_append.1 hsrcmem with hmem | hmem
    · exact hmem
    · have hsrceq : e.src = v.id := by simpa [idsOf] using hmem
      have hne := (hwf.2 e he).2.2
      exact absurd (hsrceq.trans hvdst) hne

/-- C1: for every acyclic graph on which connect has been called exactly
once, topo_sort returns a permutation of all the graph nodes (each node
appears exactly once) in which the source of every edge precedes its
destination.  This holds for every admissible key-snapshot iteration order
`sel` (modelling the unspecified HashMap order) and every pass budget of at
least the node count, and in particular for the default `topo_sort`. -/
theorem topo_sort_permutation_respects_edges (g0 : ThrillerGraph ε α)
    (hp : Pristine g0) (hwf : Wf g0) (hacy : Acyclic g0)
    (sel : Nat → List Nat → List Nat) (hsel : ∀ i ks, (sel i ks).Perm ks)
    (fuel : Nat) (hfuel : g0.nodes.length ≤ fuel) :
    (∃ st' : TopoState ε α, topoSortRun sel fuel g0.connect = some st' ∧
      st'.sorted.Perm g0.connect.nodes ∧
      ∀ e ∈ g0.edges, ∀ l₁ (v : ThrillerNode ε α) l₂, st'.sorted = l₁ ++ v :: l₂ →
        v.id = e.dst → e.src ∈ idsOf l₁) ∧
    (∃ l : List (ThrillerNode ε α), g0.connect.topo_sort = some l ∧
      l.Perm g0.connect.nodes ∧
      ∀ e ∈ g0.edges, ∀ l₁ (v : ThrillerNode ε α) l₂, l = l₁ ++ v :: l₂ →
        v.id = e.dst → e.src ∈ idsOf l₁) := by
  constructor
  · exact topoSortRun_correct g0 hp hwf hacy sel hsel fuel hfuel
  · rcases topoSortRun_correct g0 hp hwf hacy (fun _ ks => ks)
      (fun _ _ => List.Perm.refl _) g0.connect.nodes.length
      (le_of_eq (connect_nodes_length g0).symm) with ⟨st', hrun, hperm, hord⟩
    refine ⟨st'.sorted, ?_, hperm, hord⟩
    rw [ThrillerGraph.topo_sort, hrun]
    rfl

theorem topo_sort_permutation_respects_edges_witness :
    (∃ st' : TopoState Unit Unit, topoSortRun (fun _ ks => ks) 3 diamondGraph.connect = some st' ∧
      st'.sorted.Perm diamondGraph.connect.nodes ∧
      ∀ e ∈ diamondGraph.edges, ∀ l₁ (v : ThrillerNode Unit Unit) l₂,
        st'.sorted = l₁ ++ v :: l₂ → v.id = e.dst → e.src ∈ idsOf l₁) ∧
    (∃ l : List (ThrillerNode Unit Unit), diamondGraph.connect.topo_sort = some l ∧
      l.Perm diamondGraph.connect.nodes ∧
      ∀ e ∈ diamondGraph.edges, ∀ l₁ (v : ThrillerNode Unit Unit) l₂,
        l = l₁ ++ v :: l₂ → v.id = e.dst → e.src ∈ idsOf l₁) :=
  topo_sort_permutation_respects_edges diamondGraph (by decide) (by decide)
    ⟨fun i => i, by decide⟩ (fun _ ks => ks) (fun _ _ => List.Perm.refl _) 3 (by decide)

theorem cyc_step {g : ThrillerGraph ε α} {st : TopoState ε α} (hinv : TopoInv g st)
    {c : List Nat} (hcyc : ∀ k ∈ c, ∃ p ∈ c, ∃ e ∈ g.edges, e.src = p ∧ e.dst = k)
    (hsub : ∀ k ∈ c, k ∈ st.degrees.map Prod.fst) (k0 : Nat) :
    ∀ k ∈ c, k ∈ (topoStep st k0).degrees.map Prod.fst := by
  rcases h : lookupDeg st.degrees k0 with _ | d
  · rw [topoStep_no_key h]; exact hsub
  · by_cases hd : d = 0
    · subst hd
      rcases h2 : findNode st.nodes k0 with _ | node
      · rw [topoStep_no_node h h2]; exact hsub
      · rw [topoStep_harvest h h2]
        have hk0notc : k0 ∉ c := by
          intro hk0c
          rcases hcyc k0 hk0c with ⟨p, hpc2, e, he, hesrc, hedst⟩
          obtain ⟨_, _, _, _, _, hdeg, _⟩ := hinv
          have hd0 : degAmong g.edges (st.degrees.map Prod.fst) k0 = 0 :=
            (hdeg (k0, 0) (lookupDeg_mem h)).symm
          rw [degAmong_eq_countP] at hd0
          have hpos : 0 < g.edges.countP fun e2 =>
              decide (e2.src ∈ st.degrees.map Prod.fst) && decide (e2.dst = k0) :=
            List.countP_pos.2 ⟨e, he, by simp [hesrc, hedst, hsub p hpc2]⟩
          omega
        intro k hk
        show k ∈ (removeKey (node.nexts.foldl decDeg st.degrees) k0).map Prod.fst
        rw [keys_removeKey, keys_foldl_decDeg]
        refine List.mem_filter.2 ⟨hsub k hk, ?_⟩
        have hkk0 : ¬ k = k0 := fun hkk => hk0notc (hkk ▸ hk)
        simpa using hkk0
    · rw [topoStep_pos h hd]; exact hsub

theorem cyc_pass {g : ThrillerGraph ε α} (hwf : Wf g) (hpre : Prepared g)
    {c : List Nat} (hcyc : ∀ k ∈ c, ∃ p ∈ c, ∃ e ∈ g.edges, e.src = p ∧ e.dst = k)
    (ks : List Nat) :
    ∀ {st : TopoState ε α}, TopoInv g st →
      (∀ k ∈ c, k ∈ st.degrees.map Prod.fst) →
      (∀ k ∈ c, k ∈ (topoPass st ks).degrees.map Prod.fst) := by
  induction ks with
  | nil => intro st _ hsub; exact hsub
  | cons k0 ks ih =>
    intro st hinv hsub
    exact ih (topoStep_inv hwf hpre hinv k0) (cyc_step hinv hcyc hsub k0)

theorem cyc_loop {g : ThrillerGraph ε α} (hwf : Wf g) (hpre : Prepared g)
    {c : List Nat} (hcne : c ≠ [])
    (hcyc : ∀ k ∈ c, ∃ p ∈ c, ∃ e ∈ g.edges, e.src = p ∧ e.dst = k)
    (sel : Nat → List Nat → List Nat) :
    ∀ fuel i (st : TopoState ε α), TopoInv g st →
      (∀ k ∈ c, k ∈ st.degrees.map Prod.fst) →
      topoLoop sel fuel i st = none := by
  have hne : ∀ st : TopoState ε α, (∀ k ∈ c, k ∈ st.degrees.map Prod.fst) →
      ¬ st.degrees = [] := by
    intro st hsub hemp
    rcases c with _ | ⟨k, c2⟩
    · exact hcne rfl
    · have := hsub k (List.mem_cons_self k c2)
      rw [hemp] at this
      simp at this
  intro fuel
  induction fuel with
  | zero =>
    intro i st hinv hsub
    simp [topoLoop, List.isEmpty_iff, hne st hsub]
  | succ fuel ih =>
    intro i st hinv hsub
    have hrec : topoLoop sel (fuel + 1) i st =
        topoLoop sel fuel (i + 1) (topoPass st (sel i (st.degrees.map Prod.fst))) := by
      simp [topoLoop, List.isEmpty_iff, hne st hsub]
    rw [hrec]
    exact ih (i + 1) _ (topoPass_inv hwf hpre _ hinv)
      (cyc_pass hwf hpre hcyc _ hinv hsub)

/-- C4: topo_sort terminates for every acyclic graph on which connect has run
once (with any admissible key order and a pass budget of at least the node
count); if the graph contains a cycle, no node of the cycle ever leaves the
working map, so the while-loop never terminates: the run returns none for
every pass budget whatsoever. -/
theorem topo_sort_termination_dichotomy (g0 : ThrillerGraph ε α)
    (hp : Pristine g0) (hwf : Wf g0)
    (sel : Nat → List Nat → List Nat) (hsel : ∀ i ks, (sel i ks).Perm ks) :
    (Acyclic g0 → ∀ fuel, g0.nodes.length ≤ fuel →
      ∃ st', topoSortRun sel fuel g0.connect = some st') ∧
    (HasCycleSet g0 → ∀ fuel, topoSortRun sel fuel g0.connect = none) := by
  have hwfG := Wf_connect g0 hwf
  have hpreG := Prepared_connect g0 hp
  constructor
  · intro hacy fuel hfuel
    rcases topoSortRun_correct g0 hp hwf hacy sel hsel fuel hfuel with ⟨st', hrun, _, _⟩
    exact ⟨st', hrun⟩
  · rintro ⟨c, hcne, hcids, hcyc⟩ fuel
    have hsub0 : ∀ k ∈ c, k ∈ (topoInit g0.connect).degrees.map Prod.fst := by
      intro k hk
      have hkeys : (topoInit g0.connect).degrees.map Prod.fst = idsOf g0.connect.nodes := by
        show (g0.connect.nodes.map fun n => (n.id, n.in_degrees)).map Prod.fst = _
        rw [List.map_map]
        rfl
      rw [hkeys, idsOf_connect]
      exact hcids k hk
    exact cyc_loop hwfG hpreG hcne hcyc sel fuel 0 _ (topoInit_inv hwfG hpreG) hsub0

theorem topo_sort_termination_dichotomy_witness :
    topoSortRun (fun _ ks => ks) 5 cycleGraph.connect = none :=
  (topo_sort_termination_dichotomy cycleGraph (by decide) (by decide)
    (fun _ ks => ks) (fun _ _ => List.Perm.refl _)).2
    ⟨[0, 1], by decide, by decide, by decide⟩ 5

theorem emitStep_eq (code : String) (n : ThrillerNode ε α) :
    emitStep code n = (nodeFragment n).map fun s => code ++ s := by
  cases hin : n.inner with
  | Op e => cases e <;> simp [emitStep, nodeFragment, hin, Except.map]
  | Block e r => cases e <;> simp [emitStep, nodeFragment, hin, Except.map]
  | Other =>
    simp only [emitStep, nodeFragment, hin]
    show (Except.ok code : Except ε String) = Except.ok (code ++ "")
    rw [String.append_empty]

theorem foldlM_emit_cons (acc : String) (n : ThrillerNode ε α)
    (l : List (ThrillerNode ε α)) :
    (n :: l).foldlM emitStep acc =
      match nodeFragment n with
      | .error err => .error err
      | .ok s => l.foldlM emitStep (acc ++ s) := by
  rw [List.foldlM_cons, emitStep_eq]
  cases hf : nodeFragment n with
  | error err => rfl
  | ok s => rfl

theorem emit_fold (l : List (ThrillerNode ε α)) :
    ∀ acc : String, l.foldlM emitStep acc =
      (fragmentsOf l).map fun ss => ss.foldl (fun a b => a ++ b) acc := by
  induction l with
  | nil => intro acc; rfl
  | cons n l ih =>
    intro acc
    rw [foldlM_emit_cons]
    cases hf : nodeFragment n with
    | error err => simp [fragmentsOf, hf, Except.map]
    | ok s =>
      show l.foldlM emitStep (acc ++ s) =
        Except.map (fun ss => List.foldl (fun a b => a ++ b) acc ss) (fragmentsOf (n :: l))
      rw [ih (acc ++ s)]
      cases hm : fragmentsOf l with
      | error err2 => simp [fragmentsOf, hf, hm, Except.map]
      | ok ss => simp [fragmentsOf, hf, hm, Except.map]

theorem fragmentsOf_error_first :
    ∀ (l₁ : List (ThrillerNode ε α)) (x : ThrillerNode ε α)
      (l₂ : List (ThrillerNode ε α)) (err : ε),
      (∀ n ∈ l₁, ∃ s, nodeFragment n = .ok s) → nodeFragment x = .error err →
      fragmentsOf (l₁ ++ x :: l₂) = .error err := by
  intro l₁
  induction l₁ with
  | nil =>
    intro x l₂ err _ hx
    simp [fragmentsOf, hx]
  | cons n l ih =>
    intro x l₂ err hall hx
    rcases hall n (List.mem_cons_self n l) with ⟨s, hs⟩
    rw [List.cons_append]
    simp [fragmentsOf, hs, ih x l₂ err (fun m hm => hall m (List.mem_cons_of_mem n hm)) hx]

/-- C3: emit returns exactly the concatenation, in the topological order
computed by topo_sort, of the own emission fragment of each node (Op and
Block contribute their fragment, any other payload contributes nothing); the
first emission failure aborts the whole call and is propagated unchanged,
with no partial output. -/
theorem emit_concatenates_in_topo_order (g : ThrillerGraph ε α)
    (sorted : List (ThrillerNode ε α)) (h : g.topo_sort = some sorted) :
    g.emit = some ((fragmentsOf sorted).map joinStrings) ∧
    ∀ l₁ (x : ThrillerNode ε α) l₂ (err : ε), sorted = l₁ ++ x :: l₂ →
      (∀ n ∈ l₁, ∃ s, nodeFragment n = .ok s) → nodeFragment x = .error err →
      g.emit = some (.error err) := by
  have hemit : g.emit = some (emitList sorted) := by
    rw [ThrillerGraph.emit, h]
    rfl
  constructor
  · rw [hemit, emitList, emit_fold]
    rfl
  · intro l₁ x l₂ err hsplit hall hx
    rw [hemit, emitList, emit_fold sorted "", hsplit,
      fragmentsOf_error_first l₁ x l₂ err hall hx]
    rfl

theorem emit_concatenates_in_topo_order_witness :
    emitFailGraph.emit = some ((fragmentsOf emitFailGraph.nodes).map joinStrings) ∧
    ∀ l₁ (x : ThrillerNode String Unit) l₂ (err : String),
      emitFailGraph.nodes = l₁ ++ x :: l₂ →
      (∀ n ∈ l₁, ∃ s, nodeFragment n = .ok s) → nodeFragment x = .error err →
      emitFailGraph.emit = some (.error err) :=
  emit_concatenates_in_topo_order emitFailGraph emitFailGraph.nodes (by decide)

theorem foldl_push_eq {β : Type} (l : List β) :
    ∀ acc : List β, l.foldl (fun a o => a ++ [o]) acc = acc ++ l := by
  induction l with
  | nil => intro acc; simp
  | cons x l ih =>
    intro acc
    rw [List.foldl_cons, ih (acc ++ [x])]
    simp

theorem reduceList_no_block (l : List (ThrillerNode ε α))
    (h : ∀ n ∈ l, isBlockNode n = false) : reduceList l = none := by
  induction l with
  | nil => rfl
  | cons n l ih =>
    have hn := h n (List.mem_cons_self n l)
    cases hin : n.inner with
    | Op e =>
      simp [reduceList, hin]
      exact ih fun m hm => h m (List.mem_cons_of_mem n hm)
    | Block e r =>
      rw [isBlockNode, hin] at hn
      simp at hn
    | Other =>
      simp [reduceList, hin]
      exact ih fun m hm => h m (List.mem_cons_of_mem n hm)

theorem reduceList_first_block (l₁ : List (ThrillerNode ε α)) (b : ThrillerNode ε α)
    (l₂ : List (ThrillerNode ε α)) (e : Except ε String) (r : Option (List α))
    (h1 : ∀ n ∈ l₁, isBlockNode n = false) (hb : b.inner = .Block e r) :
    reduceList (l₁ ++ b :: l₂) = r := by
  induction l₁ with
  | nil =>
    rw [List.nil_append]
    cases r with
    | some outs => simp [reduceList, hb, foldl_push_eq]
    | none => simp [reduceList, hb]
  | cons n l ih =>
    have hn := h1 n (List.mem_cons_self n l)
    rw [List.cons_append]
    cases hin : n.inner with
    | Op e2 =>
      simp [reduceList, hin]
      exact ih fun m hm => h1 m (List.mem_cons_of_mem n hm)
    | Block e2 r2 =>
      rw [isBlockNode, hin] at hn
      simp at hn
    | Other =>
      simp [reduceList, hin]
      exact ih fun m hm => h1 m (List.mem_cons_of_mem n hm)

/-- C5: reduce_block_outputs computes a topological order and consults only
the first Block node in it: whatever that block reduction yields (some list,
returned as an identical copy in the block order, or none) is the result,
regardless of anything after it in the order; with no Block node at all the
result is none. -/
theorem reduce_block_outputs_first_block_only (g : ThrillerGraph ε α)
    (sorted : List (ThrillerNode ε α)) (h : g.topo_sort = some sorted) :
    ((∀ n ∈ sorted, isBlockNode n = false) → g.reduce_block_outputs = some none) ∧
    ∀ l₁ (b : ThrillerNode ε α) l₂ (e : Except ε String) (r : Option (List α)),
      sorted = l₁ ++ b :: l₂ → (∀ n ∈ l₁, isBlockNode n = false) →
      b.inner = .Block e r → g.reduce_block_outputs = some r := by
  have hred : g.reduce_block_outputs = some (reduceList sorted) := by
    rw [ThrillerGraph.reduce_block_outputs, h]
    rfl
  constructor
  · intro hnob
    rw [hred, reduceList_no_block sorted hnob]
  · intro l₁ b l₂ e r hsplit h1 hb
    rw [hred, hsplit, reduceList_first_block l₁ b l₂ e r h1 hb]

theorem reduce_block_outputs_first_block_only_witness :
    ((∀ n ∈ blockGraph.nodes, isBlockNode n = false) →
      blockGraph.reduce_block_outputs = some none) ∧
    ∀ l₁ (b : ThrillerNode Unit Nat) l₂ (e : Except Unit String) (r : Option (List Nat)),
      blockGraph.nodes = l₁ ++ b :: l₂ → (∀ n ∈ l₁, isBlockNode n = false) →
      b.inner = .Block e r → blockGraph.reduce_block_outputs = some r :=
  reduce_block_outputs_first_block_only blockGraph blockGraph.nodes (by decide)

/-- C6 counterexample: in the two-node chain after connect, the first pass of
topo_sort starts with the key snapshot [0, 1] (the working-map insertion
order, one admissible HashMap order) and node 1 enters that pass with
recorded in-degree 1; its in-degree first reaches zero in the middle of the
pass, when node 0 is harvested, and it is nevertheless appended to the
result within that same pass. -/
theorem same_pass_harvest_counterexample :
    ((topoInit chainGraph.connect).degrees.map Prod.fst = [0, 1]) ∧
    lookupDeg (topoInit chainGraph.connect).degrees 1 = some 1 ∧
    ((topoPass (topoInit chainGraph.connect)
      ((topoInit chainGraph.connect).degrees.map Prod.fst)).sorted.map ThrillerNode.id
        = [0, 1]) := by
  decide

/-- C6 amended: whether a node whose recorded in-degree first reaches zero in
the middle of a full-sweep pass is appended within that same pass depends on
the pass key-iteration order: it is appended in the same pass when its id is
examined after the decrement, and only in a subsequent pass when its id was
already examined before the decrement. -/
theorem same_pass_harvest_depends_on_order :
    ((topoPass (topoInit chainGraph.connect) [0, 1]).sorted.map ThrillerNode.id = [0, 1]) ∧
    ((topoPass (topoInit chainGraph.connect) [1, 0]).sorted.map ThrillerNode.id = [0]) ∧
    ((topoLoop (fun _ ks => ks.reverse) 2 0 (topoInit chainGraph.connect)).map
      (fun st => st.sorted.map ThrillerNode.id) = some [0, 1]) := by
  decide

theorem topoLoop_nodes_eq {sel : Nat → List Nat → List Nat} :
    ∀ (fuel i : Nat) (st st' : TopoState ε α),
      topoLoop sel fuel i st = some st' → st'.nodes = st.nodes := by
  intro fuel
  induction fuel with
  | zero =>
    intro i st st' h
    by_cases he : st.degrees.isEmpty
    · simp [topoLoop, he] at h
      rw [← h]
    · simp [topoLoop, he] at h
  | succ fuel ih =>
    intro i st st' h
    by_cases he : st.degrees.isEmpty
    · simp [topoLoop, he] at h
      rw [← h]
    · have hrec : topoLoop sel (fuel + 1) i st =
          topoLoop sel fuel (i + 1) (topoPass st (sel i (st.degrees.map Prod.fst))) := by
        simp [topoLoop, he]
      rw [hrec] at h
      rw [ih (i + 1) _ st' h, topoPass_nodes]

/-- C7: topo_sort works on a transient copy of the in-degree counts and never
writes the node store it threads through; after a completed run the store is
the original one, so repeating topo_sort, emit or reduce_block_outputs on the
resulting graph state gives exactly the results of the first call. -/
theorem scheduling_calls_leave_graph_unchanged (g : ThrillerGraph ε α)
    (sel : Nat → List Nat → List Nat) (fuel : Nat) (st' : TopoState ε α)
    (h : topoSortRun sel fuel g = some st') :
    st'.nodes = g.nodes ∧
    ThrillerGraph.topo_sort { g with nodes := st'.nodes } = g.topo_sort ∧
    ThrillerGraph.emit { g with nodes := st'.nodes } = g.emit ∧
    ThrillerGraph.reduce_block_outputs { g with nodes := st'.nodes } =
      g.reduce_block_outputs := by
  have hn : st'.nodes = g.nodes := by
    have hh := topoLoop_nodes_eq fuel 0 (topoInit g) st' h
    simpa [topoInit] using hh
  have hg : ({ g with nodes := st'.nodes } : ThrillerGraph ε α) = g := by
    rw [hn]
  exact ⟨hn, by rw [hg], by rw [hg], by rw [hg]⟩

theorem scheduling_calls_leave_graph_unchanged_witness :
    unitFinalState.nodes = unitGraph.nodes ∧
    ThrillerGraph.topo_sort { unitGraph with nodes := unitFinalState.nodes } =
      unitGraph.topo_sort ∧
    ThrillerGraph.emit { unitGraph with nodes := unitFinalState.nodes } = unitGraph.emit ∧
    ThrillerGraph.reduce_block_outputs { unitGraph with nodes := unitFinalState.nodes } =
      unitGraph.reduce_block_outputs :=
  scheduling_calls_leave_graph_unchanged unitGraph (fun _ ks => ks) 1 unitFinalState
    (by decide)

/-- C9: try_split on a loop-group slice holding exactly one group returns no
split, for any graph shape. -/
theorem try_split_single_group_returns_none (g : ThrillerGraph ε α)
    (groups : List LoopGroup) (h : groups.length = 1) :
    g.try_split groups = .returns none := by
  simp [ThrillerGraph.try_split, h]

theorem try_split_single_group_returns_none_witness :
    unitGraph.try_split [⟨1⟩] = .returns none :=
  try_split_single_group_returns_none unitGraph [⟨1⟩] (by decide)

/-- C10: the extension points abort at runtime instead of returning:
try_split reaches its todo! placeholder for every group count other than
exactly one (the empty slice included), and try_find_disconnected_subgraph
reaches its todo! placeholder on every call, for every graph. -/
theorem extension_points_abort (g : ThrillerGraph ε α) (groups : List LoopGroup)
    (h : ¬ groups.length = 1) :
    g.try_split groups = .panics "try_split not implemented yet" ∧
    g.try_find_disconnected_subgraph =
      .panics "find_disconnected_subgraph not implemented yet" := by
  constructor
  · simp [ThrillerGraph.try_split, h]
  · rfl

theorem extension_points_abort_witness :
    unitGraph.try_split [] = .panics "try_split not implemented yet" ∧
    unitGraph.try_find_disconnected_subgraph =
      .panics "find_disconnected_subgraph not implemented yet" :=
  extension_points_abort unitGraph [] (by decide)
